import Mathlib

/-!
Verification of the response-normalization subsystem of the quantsumore
repository (`_http/response_utils.py`).

The Python payloads handled by `normalize_response` are untyped trees of
dicts, lists, scalars and strings (where a string may itself encode a
serialized structure).  We embed them as the inductive type `JVal`.
`json.loads` is an external serialization codec; we model it as a
`Decoder`: a partial function from strings to values together with the
size bound satisfied by any real textual serialization format (a decoded
value is no larger than the text that encodes it — a JSON string literal,
for instance, strictly shrinks when decoded).  That bound is exactly what
makes the recursive walks of the source terminate.

The recursive functions `normalize`, `deep_parse_json` and the
occurrence counter are defined with an explicit fuel argument and then
wrapped at fuel `sizeJ x`; the fuel-irrelevance lemmas below show the
recursion stabilizes at that fuel, i.e. the wrapped functions are the
total fixpoints of the source's recursions.

Python exceptions that can escape a function are modelled with `Except`;
exceptions caught inside the source (`json.JSONDecodeError`) are modelled
by the decoder returning `none`.
-/

namespace RespUtils

/-- Untyped payload tree: dicts (`objv`, insertion-ordered fields),
lists (`arrv`), strings, and scalars. -/
inductive JVal where
  | nullv : JVal
  | boolv (b : Bool) : JVal
  | numv (n : Int) : JVal
  | strv (s : String) : JVal
  | arrv (items : List JVal) : JVal
  | objv (fields : List (String × JVal)) : JVal

mutual
/-- Size of a payload tree; a string node weighs its length plus one. -/
def sizeJ : JVal → Nat
  | .nullv => 1
  | .boolv _ => 1
  | .numv _ => 1
  | .strv s => s.length + 1
  | .arrv items => sizeArr items + 1
  | .objv fields => sizeObj fields + 1
/-- Total size of the elements of a list node. -/
def sizeArr : List JVal → Nat
  | [] => 0
  | x :: xs => sizeJ x + sizeArr xs
/-- Total size of the values of a dict node. -/
def sizeObj : List (String × JVal) → Nat
  | [] => 0
  | (_, v) :: fs => sizeJ v + sizeObj fs
end

/-- Model of `json.loads`: a partial decode function.  `loads_size` is
the size bound any textual serialization satisfies (decoding strictly
consumes the surrounding quotes/brackets of the text). -/
structure Decoder where
  loads : String → Option JVal
  loads_size : ∀ s v, loads s = some v → sizeJ v ≤ s.length

/-- First value stored under `target` in an insertion-ordered dict;
models both `target_key in response` and `response[target_key]`. -/
def lookupKey (target : String) : List (String × α) → Option α
  | [] => none
  | (k, v) :: fs => if k = target then some v else lookupKey target fs

/-- Fuel-indexed version of the inner `normalize` of
`normalize_response`: record the match under `target_key` (optionally
keeping the `{target_key: value}` wrapper), then recurse into every dict
value, every list item in order, and into any string that decodes. -/
def normalizeFuel (D : Decoder) (target : String) (keep : Bool) : Nat → JVal → List JVal
  | 0, _ => []
  | fuel + 1, x =>
    match x with
    | .objv fields =>
      (match lookupKey target fields with
       | some v => if keep then [.objv [(target, v)]] else [v]
       | none => []) ++ fields.flatMap (fun p => normalizeFuel D target keep fuel p.2)
    | .arrv items => items.flatMap (normalizeFuel D target keep fuel)
    | .strv s =>
      match D.loads s with
      | some v => normalizeFuel D target keep fuel v
      | none => []
    | _ => []

/-- The inner `normalize` of `normalize_response`. -/
def normalize (D : Decoder) (target : String) (keep : Bool) (x : JVal) : List JVal :=
  normalizeFuel D target keep (sizeJ x) x

/-- Fuel-indexed version of `deep_parse_json`: replace every string that
decodes by the deep parse of its decoded value, recurse through dicts
and lists, leave scalars and undecodable strings unchanged. -/
def deepParseFuel (D : Decoder) : Nat → JVal → JVal
  | 0, x => x
  | fuel + 1, x =>
    match x with
    | .strv s =>
      match D.loads s with
      | some v => deepParseFuel D fuel v
      | none => .strv s
    | .arrv items => .arrv (items.map (deepParseFuel D fuel))
    | .objv fields => .objv (fields.map (fun p => (p.1, deepParseFuel D fuel p.2)))
    | y => y

/-- The inner `deep_parse_json` of `normalize_response`. -/
def deep_parse_json (D : Decoder) (x : JVal) : JVal :=
  deepParseFuel D (sizeJ x) x

/-- Fuel-indexed occurrence counter: how many matches the `normalize`
walk discovers for `target` (independent of `keep_structure`). -/
def countKeyFuel (D : Decoder) (target : String) : Nat → JVal → Nat
  | 0, _ => 0
  | fuel + 1, x =>
    match x with
    | .objv fields =>
      (if (lookupKey target fields).isSome then 1 else 0) +
        (fields.map (fun p => countKeyFuel D target fuel p.2)).sum
    | .arrv items => (items.map (countKeyFuel D target fuel)).sum
    | .strv s =>
      match D.loads s with
      | some v => countKeyFuel D target fuel v
      | none => 0
    | _ => 0

/-- Number of occurrences of `target` discovered by the extraction walk. -/
def countKey (D : Decoder) (target : String) (x : JVal) : Nat :=
  countKeyFuel D target (sizeJ x) x

/-- The `multiple=False` path of `process_result`: `data[0]` was a single
match; if it is a list, Python returns `deep_parse_json(result[0])` —
raising an uncaught `IndexError` when the list is empty (the
`except json.JSONDecodeError` clause does not catch `IndexError`, and
`deep_parse_json` itself never raises `JSONDecodeError`). -/
def process_result_single (D : Decoder) (result : JVal) : Except String JVal :=
  match result with
  | .arrv [] => .error "IndexError"
  | .arrv (x :: _) => .ok (deep_parse_json D x)
  | r => .ok (deep_parse_json D r)

/-- Model of `normalize_response`: deep-parse only, or extract via `normalize`,
then shape the result exactly as the tail of the Python function does
(`multi = len(data) != 1`, `result = data[0] if len(data)==1 else data`,
`process_result(result, multiple=multi)`). -/
def normalize_response (D : Decoder) (response : JVal) (target_key : String)
    (onlyNormalize keep_structure : Bool) : Except String JVal :=
  if onlyNormalize then .ok (deep_parse_json D response)
  else
    match normalize D target_key keep_structure response with
    | [r] => process_result_single D r
    | data => .ok (.arrv (data.map (deep_parse_json D)))

/-- The trivial decoder: no string decodes (every string is a leaf). -/
def noDecode : Decoder where
  loads := fun _ => none
  loads_size := fun s v h => by simp at h

/-- A small concrete decoder used for witnesses: decodes the digit
strings `"5"` and `"7"` to the corresponding numbers. -/
def digitDecode : Decoder where
  loads := fun s =>
    if s = "5" then some (.numv 5)
    else if s = "7" then some (.numv 7)
    else none
  loads_size := fun s v h => by
    by_cases h5 : s = "5"
    · subst h5; simp at h; subst h; simp [sizeJ]; decide
    · by_cases h7 : s = "7"
      · subst h7; simp [h5] at h; subst h; simp [sizeJ]; decide
      · simp [h5, h7] at h

/-! ### Size lemmas -/

theorem one_le_sizeJ (x : JVal) : 1 ≤ sizeJ x := by
  cases x <;> simp [sizeJ]

theorem sizeJ_le_sizeArr_of_mem {y : JVal} {items : List JVal} (h : y ∈ items) :
    sizeJ y ≤ sizeArr items := by
  induction items with
  | nil => cases h
  | cons a t ih =>
    rcases List.mem_cons.mp h with h1 | h2
    · subst h1; simp [sizeArr]
    · have := ih h2; simp [sizeArr]; omega

theorem sizeJ_le_sizeObj_of_mem {p : String × JVal} {fields : List (String × JVal)}
    (h : p ∈ fields) : sizeJ p.2 ≤ sizeObj fields := by
  induction fields with
  | nil => cases h
  | cons a t ih =>
    obtain ⟨k, v⟩ := a
    rcases List.mem_cons.mp h with h1 | h2
    · subst h1; simp [sizeObj]
    · have := ih h2; simp [sizeObj]; omega

/-! ### Fuel irrelevance: the recursions stabilize at fuel `sizeJ x` -/

theorem deepParseFuel_eq_of_le (D : Decoder) :
    ∀ (f g : Nat) (x : JVal), sizeJ x ≤ f → sizeJ x ≤ g →
      deepParseFuel D f x = deepParseFuel D g x := by
  intro f
  induction f with
  | zero =>
    intro g x hf _
    exact absurd hf (by have := one_le_sizeJ x; omega)
  | succ f ih =>
    intro g x hf hg
    cases g with
    | zero => exact absurd hg (by have := one_le_sizeJ x; omega)
    | succ g =>
      cases x with
      | nullv => rfl
      | boolv b => rfl
      | numv n => rfl
      | strv s =>
        simp only [deepParseFuel]
        cases h : D.loads s with
        | none => rfl
        | some v =>
          have hv := D.loads_size s v h
          have hs : sizeJ (JVal.strv s) = s.length + 1 := rfl
          exact ih g v (by omega) (by omega)
      | arrv items =>
        simp only [deepParseFuel]
        have hs : sizeJ (JVal.arrv items) = sizeArr items + 1 := rfl
        congr 1
        apply List.map_congr_left
        intro y hy
        have := sizeJ_le_sizeArr_of_mem hy
        exact ih g y (by omega) (by omega)
      | objv fields =>
        simp only [deepParseFuel]
        have hs : sizeJ (JVal.objv fields) = sizeObj fields + 1 := rfl
        congr 1
        apply List.map_congr_left
        intro p hp
        have := sizeJ_le_sizeObj_of_mem hp
        have : deepParseFuel D f p.2 = deepParseFuel D g p.2 := ih g p.2 (by omega) (by omega)
        rw [this]

theorem deepParseFuel_eq (D : Decoder) {f : Nat} {x : JVal} (h : sizeJ x ≤ f) :
    deepParseFuel D f x = deep_parse_json D x :=
  deepParseFuel_eq_of_le D f (sizeJ x) x h (le_refl _)

theorem normalizeFuel_eq_of_le (D : Decoder) (target : String) (keep : Bool) :
    ∀ (f g : Nat) (x : JVal), sizeJ x ≤ f → sizeJ x ≤ g →
      normalizeFuel D target keep f x = normalizeFuel D target keep g x := by
  intro f
  induction f with
  | zero =>
    intro g x hf _
    exact absurd hf (by have := one_le_sizeJ x; omega)
  | succ f ih =>
    intro g x hf hg
    cases g with
    | zero => exact absurd hg (by have := one_le_sizeJ x; omega)
    | succ g =>
      cases x with
      | nullv => rfl
      | boolv b => rfl
      | numv n => rfl
      | strv s =>
        simp only [normalizeFuel]
        cases h : D.loads s with
        | none => rfl
        | some v =>
          have hv := D.loads_size s v h
          have hs : sizeJ (JVal.strv s) = s.length + 1 := rfl
          exact ih g v (by omega) (by omega)
      | arrv items =>
        simp only [normalizeFuel]
        have hs : sizeJ (JVal.arrv items) = sizeArr items + 1 := rfl
        apply List.flatMap_congr
        intro y hy
        have := sizeJ_le_sizeArr_of_mem hy
        exact ih g y (by omega) (by omega)
      | objv fields =>
        simp only [normalizeFuel]
        have hs : sizeJ (JVal.objv fields) = sizeObj fields + 1 := rfl
        congr 1
        apply List.flatMap_congr
        intro p hp
        have := sizeJ_le_sizeObj_of_mem hp
        exact ih g p.2 (by omega) (by omega)

theorem normalizeFuel_eq (D : Decoder) (target : String) (keep : Bool) {f : Nat} {x : JVal}
    (h : sizeJ x ≤ f) : normalizeFuel D target keep f x = normalize D target keep x :=
  normalizeFuel_eq_of_le D target keep f (sizeJ x) x h (le_refl _)

/-! ### Unfolding equations for the wrapped (fixpoint) functions -/

theorem deep_parse_json_strv_some (D : Decoder) {s : String} {v : JVal}
    (h : D.loads s = some v) : deep_parse_json D (.strv s) = deep_parse_json D v := by
  have hv := D.loads_size s v h
  simp only [deep_parse_json, sizeJ, deepParseFuel, h]
  exact deepParseFuel_eq D hv

theorem deep_parse_json_strv_none (D : Decoder) {s : String}
    (h : D.loads s = none) : deep_parse_json D (.strv s) = .strv s := by
  simp only [deep_parse_json, sizeJ, deepParseFuel, h]

theorem deep_parse_json_arrv (D : Decoder) (items : List JVal) :
    deep_parse_json D (.arrv items) = .arrv (items.map (deep_parse_json D)) := by
  simp only [deep_parse_json, sizeJ, deepParseFuel]
  congr 1
  apply List.map_congr_left
  intro y hy
  exact deepParseFuel_eq D (sizeJ_le_sizeArr_of_mem hy)

theorem deep_parse_json_objv (D : Decoder) (fields : List (String × JVal)) :
    deep_parse_json D (.objv fields) = .objv (fields.map (fun p => (p.1, deep_parse_json D p.2))) := by
  simp only [deep_parse_json, sizeJ, deepParseFuel]
  congr 1
  apply List.map_congr_left
  intro p hp
  rw [deepParseFuel_eq D (sizeJ_le_sizeObj_of_mem hp)]
  rfl

theorem normalize_objv (D : Decoder) (target : String) (keep : Bool)
    (fields : List (String × JVal)) :
    normalize D target keep (.objv fields) =
      (match lookupKey target fields with
       | some v => if keep then [.objv [(target, v)]] else [v]
       | none => []) ++ fields.flatMap (fun p => normalize D target keep p.2) := by
  simp only [normalize, sizeJ, normalizeFuel]
  congr 1
  apply List.flatMap_congr
  intro p hp
  exact normalizeFuel_eq D target keep (sizeJ_le_sizeObj_of_mem hp)

theorem normalize_arrv (D : Decoder) (target : String) (keep : Bool) (items : List JVal) :
    normalize D target keep (.arrv items) = items.flatMap (normalize D target keep) := by
  simp only [normalize, sizeJ, normalizeFuel]
  apply List.flatMap_congr
  intro y hy
  exact normalizeFuel_eq D target keep (sizeJ_le_sizeArr_of_mem hy)

theorem normalize_strv_some (D : Decoder) (target : String) (keep : Bool) {s : String} {v : JVal}
    (h : D.loads s = some v) : normalize D target keep (.strv s) = normalize D target keep v := by
  have hv := D.loads_size s v h
  simp only [normalize, sizeJ, normalizeFuel, h]
  exact normalizeFuel_eq D target keep hv

theorem normalize_strv_none (D : Decoder) (target : String) (keep : Bool) {s : String}
    (h : D.loads s = none) : normalize D target keep (.strv s) = [] := by
  simp only [normalize, sizeJ, normalizeFuel, h]

/-! ### The occurrence counter counts exactly the matches the walk collects -/

theorem length_flatMap_eq_sum (l : List α) (f : α → List β) :
    (l.flatMap f).length = (l.map (fun a => (f a).length)).sum := by
  induction l with
  | nil => rfl
  | cons a t ih => simp [List.flatMap_cons, ih]

theorem length_normalizeFuel (D : Decoder) (target : String) (keep : Bool) :
    ∀ (f : Nat) (x : JVal),
      (normalizeFuel D target keep f x).length = countKeyFuel D target f x := by
  intro f
  induction f with
  | zero => intro x; rfl
  | succ f ih =>
    intro x
    cases x with
    | nullv => rfl
    | boolv b => rfl
    | numv n => rfl
    | strv s =>
      simp only [normalizeFuel, countKeyFuel]
      cases h : D.loads s with
      | none => rfl
      | some v => exact ih v
    | arrv items =>
      simp only [normalizeFuel, countKeyFuel]
      rw [length_flatMap_eq_sum]
      congr 1
      apply List.map_congr_left
      intro y _
      exact ih y
    | objv fields =>
      simp only [normalizeFuel, countKeyFuel, List.length_append]
      have h1 : (fields.flatMap (fun p => normalizeFuel D target keep f p.2)).length
          = (fields.map (fun p => countKeyFuel D target f p.2)).sum := by
        rw [length_flatMap_eq_sum]
        congr 1
        apply List.map_congr_left
        intro p _
        exact ih p.2
      rw [h1]
      cases hl : lookupKey target fields with
      | some v => cases keep <;> simp
      | none => simp

theorem length_normalize (D : Decoder) (target : String) (keep : Bool) (x : JVal) :
    (normalize D target keep x).length = countKey D target x :=
  length_normalizeFuel D target keep (sizeJ x) x

/-! ### Case equations for the result-shaping tail of `normalize_response` -/

theorem normalize_response_of_nil (D : Decoder) {x : JVal} {target : String} {keep : Bool}
    (h : normalize D target keep x = []) :
    normalize_response D x target false keep = .ok (.arrv []) := by
  simp only [normalize_response, Bool.false_eq_true, if_false, h, List.map_nil]

theorem normalize_response_of_single (D : Decoder) {x : JVal} {target : String} {keep : Bool}
    {r : JVal} (h : normalize D target keep x = [r]) :
    normalize_response D x target false keep = process_result_single D r := by
  simp only [normalize_response, Bool.false_eq_true, if_false, h]

theorem normalize_response_of_multi (D : Decoder) {x : JVal} {target : String} {keep : Bool}
    {a b : JVal} {l : List JVal} (h : normalize D target keep x = a :: b :: l) :
    normalize_response D x target false keep =
      .ok (.arrv ((a :: b :: l).map (deep_parse_json D))) := by
  simp only [normalize_response, Bool.false_eq_true, if_false, h]

/-! ### Idempotence of deep parsing -/

mutual
/-- Holds when no string node of `x` still decodes under `D`. -/
def fullyParsed (D : Decoder) : JVal → Bool
  | .nullv => true
  | .boolv _ => true
  | .numv _ => true
  | .strv s => (D.loads s).isNone
  | .arrv items => fullyParsedArr D items
  | .objv fields => fullyParsedObj D fields
/-- The `fullyParsed` check over the elements of a list node. -/
def fullyParsedArr (D : Decoder) : List JVal → Bool
  | [] => true
  | x :: xs => fullyParsed D x && fullyParsedArr D xs
/-- The `fullyParsed` check over the values of a dict node. -/
def fullyParsedObj (D : Decoder) : List (String × JVal) → Bool
  | [] => true
  | (_, v) :: fs => fullyParsed D v && fullyParsedObj D fs
end

theorem fullyParsedArr_iff (D : Decoder) (l : List JVal) :
    fullyParsedArr D l = true ↔ ∀ y ∈ l, fullyParsed D y = true := by
  induction l with
  | nil => simp [fullyParsedArr]
  | cons a t ih => simp [fullyParsedArr, Bool.and_eq_true, ih]

theorem fullyParsedObj_iff (D : Decoder) (l : List (String × JVal)) :
    fullyParsedObj D l = true ↔ ∀ p ∈ l, fullyParsed D p.2 = true := by
  induction l with
  | nil => simp [fullyParsedObj]
  | cons a t ih =>
    obtain ⟨k, v⟩ := a
    simp [fullyParsedObj, Bool.and_eq_true, ih]

theorem fullyParsed_deepParseFuel (D : Decoder) :
    ∀ (f : Nat) (x : JVal), sizeJ x ≤ f → fullyParsed D (deepParseFuel D f x) = true := by
  intro f
  induction f with
  | zero =>
    intro x h
    exact absurd h (by have := one_le_sizeJ x; omega)
  | succ f ih =>
    intro x h
    cases x with
    | nullv => rfl
    | boolv b => rfl
    | numv n => rfl
    | strv s =>
      simp only [deepParseFuel]
      cases hl : D.loads s with
      | none => simp [fullyParsed, hl]
      | some v =>
        have hv := D.loads_size s v hl
        have hs : sizeJ (JVal.strv s) = s.length + 1 := rfl
        exact ih v (by omega)
    | arrv items =>
      simp only [deepParseFuel, fullyParsed]
      rw [fullyParsedArr_iff]
      intro y hy
      obtain ⟨z, hz, rfl⟩ := List.mem_map.mp hy
      have := sizeJ_le_sizeArr_of_mem hz
      have hs : sizeJ (JVal.arrv items) = sizeArr items + 1 := rfl
      exact ih z (by omega)
    | objv fields =>
      simp only [deepParseFuel, fullyParsed]
      rw [fullyParsedObj_iff]
      intro p hp
      obtain ⟨q, hq, rfl⟩ := List.mem_map.mp hp
      have := sizeJ_le_sizeObj_of_mem hq
      have hs : sizeJ (JVal.objv fields) = sizeObj fields + 1 := rfl
      exact ih q.2 (by omega)

theorem deepParseFuel_of_fullyParsed (D : Decoder) :
    ∀ (f : Nat) (x : JVal), fullyParsed D x = true → deepParseFuel D f x = x := by
  intro f
  induction f with
  | zero => intro x _; rfl
  | succ f ih =>
    intro x h
    cases x with
    | nullv => rfl
    | boolv b => rfl
    | numv n => rfl
    | strv s =>
      have hn : (D.loads s).isNone = true := by simpa [fullyParsed] using h
      simp only [deepParseFuel]
      cases hl : D.loads s with
      | none => rfl
      | some v => rw [hl] at hn; simp at hn
    | arrv items =>
      have hall := (fullyParsedArr_iff D items).mp (by simpa [fullyParsed] using h)
      simp only [deepParseFuel]
      congr 1
      calc items.map (deepParseFuel D f)
          = items.map id := List.map_congr_left (fun y hy => ih y (hall y hy))
        _ = items := List.map_id items
    | objv fields =>
      have hall := (fullyParsedObj_iff D fields).mp (by simpa [fullyParsed] using h)
      simp only [deepParseFuel]
      congr 1
      calc fields.map (fun p => (p.1, deepParseFuel D f p.2))
          = fields.map id := List.map_congr_left (fun p hp => by
              simp only [id_eq]
              rw [ih p.2 (hall p hp)])
        _ = fields := List.map_id fields

theorem deep_parse_json_idem (D : Decoder) (x : JVal) :
    deep_parse_json D (deep_parse_json D x) = deep_parse_json D x :=
  deepParseFuel_of_fullyParsed D (sizeJ (deep_parse_json D x)) (deep_parse_json D x)
    (fullyParsed_deepParseFuel D (sizeJ x) x (le_refl _))

/-! ### Claim theorems for the response normalizer -/

/-- C1 (counterexample): the claim "for every payload in which the target
key occurs exactly once, `normalize_response` (onlyNormalize=false)
returns that single matched value, deep-parsed" is false: for the payload
`{"response": [1, 2]}` the key occurs exactly once and the matched value
is `[1, 2]` (already deep-parsed), yet `normalize_response` returns `1` —
`process_result` indexes into a single matched list and returns the deep
parse of its first element only. -/
theorem C1_counterexample :
    countKey noDecode "response" (.objv [("response", .arrv [.numv 1, .numv 2])]) = 1 ∧
    normalize noDecode "response" false (.objv [("response", .arrv [.numv 1, .numv 2])])
      = [.arrv [.numv 1, .numv 2]] ∧
    deep_parse_json noDecode (.arrv [.numv 1, .numv 2]) = .arrv [.numv 1, .numv 2] ∧
    normalize_response noDecode (.objv [("response", .arrv [.numv 1, .numv 2])])
      "response" false false = .ok (.numv 1) ∧
    (Except.ok (JVal.numv 1) : Except String JVal) ≠ .ok (.arrv [.numv 1, .numv 2]) := by
  refine ⟨rfl, rfl, rfl, rfl, fun h => ?_⟩
  cases h

/-- C1 (amended): for every payload in which the target key occurs
exactly once, `normalize_response` (onlyNormalize=false) returns the
single matched value deep-parsed and unwrapped — provided that matched
value is not itself a list (a single matched list is instead replaced by
the deep parse of its first element, cf. the counterexample and C6). -/
theorem C1_single_match_unwrapped (D : Decoder) (x : JVal) (target : String) (keep : Bool)
    (h1 : countKey D target x = 1) :
    ∃ r, normalize D target keep x = [r] ∧
      ((∀ items, r ≠ .arrv items) →
        normalize_response D x target false keep = .ok (deep_parse_json D r)) := by
  have hl : (normalize D target keep x).length = 1 := by rw [length_normalize]; exact h1
  obtain ⟨r, hr⟩ := List.length_eq_one.mp hl
  refine ⟨r, hr, fun hnl => ?_⟩
  rw [normalize_response_of_single D hr]
  cases r with
  | nullv => rfl
  | boolv b => rfl
  | numv n => rfl
  | strv s => rfl
  | objv fields => rfl
  | arrv items => exact absurd rfl (hnl items)

/-- Witness for C1 (amended): `{"a": "x", "response": {"x": 1}}` has one
occurrence of `"response"`, whose value is a dict, and
`normalize_response` returns that dict deep-parsed. -/
theorem C1_single_match_unwrapped_witness :
    ∃ r, normalize noDecode "response" false
        (.objv [("a", .strv "x"), ("response", .objv [("x", .numv 1)])]) = [r] ∧
      ((∀ items, r ≠ .arrv items) →
        normalize_response noDecode
          (.objv [("a", .strv "x"), ("response", .objv [("x", .numv 1)])])
          "response" false false = .ok (deep_parse_json noDecode r)) :=
  C1_single_match_unwrapped noDecode
    (.objv [("a", .strv "x"), ("response", .objv [("x", .numv 1)])]) "response" false rfl

/-- C2: for every payload in which the target key occurs N>1 times,
`normalize_response` (onlyNormalize=false) returns the ordered sequence
of exactly the N values collected by the walk, each deep-parsed, in
depth-first discovery order: in a dict the match under the target key is
recorded before recursing into every value, list items are visited in
order, and a string that decodes is recursed into. -/
theorem C2_multiple_matches_ordered (D : Decoder) (x : JVal) (target : String) (keep : Bool)
    (N : Nat) (hN : countKey D target x = N) (h2 : 2 ≤ N) :
    (normalize_response D x target false keep =
        .ok (.arrv ((normalize D target keep x).map (deep_parse_json D))) ∧
      (normalize D target keep x).length = N) ∧
    (∀ fields v, lookupKey target fields = some v →
        normalize D target false (.objv fields) =
          v :: fields.flatMap (fun p => normalize D target false p.2)) ∧
    (∀ items, normalize D target false (.arrv items) =
        items.flatMap (normalize D target false)) ∧
    (∀ s v, D.loads s = some v →
        normalize D target false (.strv s) = normalize D target false v) := by
  have hl : (normalize D target keep x).length = N := by rw [length_normalize]; exact hN
  refine ⟨⟨?_, hl⟩, ?_, ?_, ?_⟩
  · cases hd : normalize D target keep x with
    | nil => rw [hd] at hl; simp at hl; omega
    | cons a l1 =>
      cases l1 with
      | nil => rw [hd] at hl; simp at hl; omega
      | cons b l2 => exact normalize_response_of_multi D hd
  · intro fields v hv
    rw [normalize_objv]
    simp [hv]
  · intro items
    exact normalize_arrv D target false items
  · intro s v hv
    exact normalize_strv_some D target false hv

/-- Witness for C2: `[{"response": "5"}, {"response": "7"}]` has two
occurrences; the result is `[5, 7]`, strings deep-parsed to numbers, in
traversal order. -/
theorem C2_multiple_matches_ordered_witness :
    (normalize_response digitDecode
        (.arrv [.objv [("response", .strv "5")], .objv [("response", .strv "7")]])
        "response" false false =
      .ok (.arrv ((normalize digitDecode "response" false
        (.arrv [.objv [("response", .strv "5")], .objv [("response", .strv "7")]])).map
          (deep_parse_json digitDecode))) ∧
      (normalize digitDecode "response" false
        (.arrv [.objv [("response", .strv "5")], .objv [("response", .strv "7")]])).length = 2) ∧
    (∀ fields v, lookupKey "response" fields = some v →
        normalize digitDecode "response" false (.objv fields) =
          v :: fields.flatMap (fun p => normalize digitDecode "response" false p.2)) ∧
    (∀ items, normalize digitDecode "response" false (.arrv items) =
        items.flatMap (normalize digitDecode "response" false)) ∧
    (∀ s v, digitDecode.loads s = some v →
        normalize digitDecode "response" false (.strv s) = normalize digitDecode "response" false v) :=
  C2_multiple_matches_ordered digitDecode
    (.arrv [.objv [("response", .strv "5")], .objv [("response", .strv "7")]])
    "response" false 2 rfl (by omega)

/-- C3: `deep_parse_json` is total and idempotent: the fuel-indexed
recursion stabilizes at fuel `sizeJ x` (so the function is the total
fixpoint of the source's recursion), and applying it twice equals
applying it once. -/
theorem C3_deep_parse_total_idempotent (D : Decoder) (x : JVal) :
    (∀ f, sizeJ x ≤ f → deepParseFuel D f x = deep_parse_json D x) ∧
    deep_parse_json D (deep_parse_json D x) = deep_parse_json D x :=
  ⟨fun _ hf => deepParseFuel_eq D hf, deep_parse_json_idem D x⟩

/-- Witness for C3 at a concrete nested input: `{"k": "5"}` with the
digit decoder (the inner string deep-parses to a number). -/
theorem C3_deep_parse_total_idempotent_witness :
    (deepParseFuel digitDecode 9 (.objv [("k", .strv "5")]) =
      deep_parse_json digitDecode (.objv [("k", .strv "5")])) ∧
    deep_parse_json digitDecode (deep_parse_json digitDecode (.objv [("k", .strv "5")])) =
      deep_parse_json digitDecode (.objv [("k", .strv "5")]) :=
  ⟨(C3_deep_parse_total_idempotent digitDecode (.objv [("k", .strv "5")])).1 9 (by decide),
   (C3_deep_parse_total_idempotent digitDecode (.objv [("k", .strv "5")])).2⟩

/-- C6: extraction is not total — when the target key occurs exactly once
and its matched value is an empty list, `process_result` evaluates
`result[0]` on that empty list and the `IndexError` escapes
`normalize_response` (the surrounding `except json.JSONDecodeError` does
not catch it). -/
theorem C6_empty_list_single_match_raises :
    countKey noDecode "response" (.objv [("response", .arrv [])]) = 1 ∧
    normalize_response noDecode (.objv [("response", .arrv [])]) "response" false false
      = .error "IndexError" :=
  ⟨rfl, rfl⟩

/-- C7: for every payload in which the target key occurs zero times,
`normalize_response` (onlyNormalize=false) returns the empty sequence. -/
theorem C7_zero_matches_empty (D : Decoder) (x : JVal) (target : String) (keep : Bool)
    (h : countKey D target x = 0) :
    normalize_response D x target false keep = .ok (.arrv []) := by
  have hl : (normalize D target keep x).length = 0 := by rw [length_normalize]; exact h
  exact normalize_response_of_nil D (List.length_eq_zero.mp hl)

/-- Witness for C7: a payload without the target key yields `[]`. -/
theorem C7_zero_matches_empty_witness :
    normalize_response noDecode (.objv [("a", .numv 3)]) "response" false false
      = .ok (.arrv []) :=
  C7_zero_matches_empty noDecode (.objv [("a", .numv 3)]) "response" false rfl

/-- C10: during the walk a string that fails to decode is a leaf
contributing no matches; the failure is swallowed, never surfaced: the
deep-parse pass leaves such strings unchanged, the `onlyNormalize` path
always succeeds, and the only error `normalize_response` can produce is
the `IndexError` of a single empty-list match (never a decode failure). -/
theorem C10_undecodable_string_is_silent_leaf (D : Decoder) (target : String) (keep : Bool) :
    (∀ s, D.loads s = none → normalize D target keep (.strv s) = []) ∧
    (∀ s, D.loads s = none → deep_parse_json D (.strv s) = .strv s) ∧
    (∀ x, normalize_response D x target true keep = .ok (deep_parse_json D x)) ∧
    (∀ x e, normalize_response D x target false keep = .error e →
        normalize D target keep x = [.arrv []]) := by
  refine ⟨fun s h => normalize_strv_none D target keep h,
         fun s h => deep_parse_json_strv_none D h,
         fun x => rfl, ?_⟩
  intro x e herr
  cases hd : normalize D target keep x with
  | nil =>
    rw [normalize_response_of_nil D hd] at herr
    cases herr
  | cons a l1 =>
    cases l1 with
    | nil =>
      rw [normalize_response_of_single D hd] at herr
      cases a with
      | nullv => cases herr
      | boolv b => cases herr
      | numv n => cases herr
      | strv s => cases herr
      | objv fields => cases herr
      | arrv items =>
        cases items with
        | nil => rfl
        | cons y ys => cases herr
    | cons b l2 =>
      rw [normalize_response_of_multi D hd] at herr
      cases herr

/-- Witness for C10: the trivial decoder decodes nothing; the string leaf
`"nope"` contributes no matches and nothing is raised. -/
theorem C10_undecodable_string_is_silent_leaf_witness :
    (normalize noDecode "response" false (.strv "nope") = []) ∧
    (deep_parse_json noDecode (.strv "nope") = .strv "nope") ∧
    (normalize_response noDecode (.strv "nope") "response" true false
      = .ok (deep_parse_json noDecode (.strv "nope"))) ∧
    (normalize_response noDecode (.strv "nope") "response" false false ≠ .error "IndexError") := by
  have h := C10_undecodable_string_is_silent_leaf noDecode "response" false
  refine ⟨h.1 "nope" rfl, h.2.1 "nope" rfl, h.2.2.1 (.strv "nope"), fun he => ?_⟩
  have := h.2.2.2 (.strv "nope") "IndexError" he
  rw [h.1 "nope" rfl] at this
  cases this

/-! ### Request dispatcher: header management and normalization fallback -/

/-- Modelled from the spec: the shared connection client singleton
(`_http/connection.py` is not among the sources); per the external
interface section it exposes `get_headers`/`update_header`, a header
mutation is immediately visible, and `get_headers` returns the currently
active value.  Its header state is a map from names to values. -/
structure Client where
  headers : String → Option String

/-- Modelled from the spec: `http_client.get_headers(name)`. -/
def get_headers (c : Client) (h : String) : Option String := c.headers h

/-- Modelled from the spec: `http_client.update_header(name, value)`. -/
def update_header (c : Client) (h : String) (v : Option String) : Client :=
  ⟨fun k => if k = h then v else c.headers k⟩

/-- Python dict assignment `d[k] = v` on an insertion-ordered dict:
overwrite in place when the key exists, else append. -/
def pyDictInsert (d : List (String × α)) (k : String) (v : α) : List (String × α) :=
  if ∃ p ∈ d, p.1 = k then d.map (fun p => if p.1 = k then (p.1, v) else p)
  else d ++ [(k, v)]

/-- The header-override loop of `Request`: for each override, capture the
original value (read before mutation), then update; returns the mutated
client and the captured originals in iteration order. -/
def apply_overrides (c : Client) : List (String × String) → Client × List (String × Option String)
  | [] => (c, [])
  | (h, v) :: rest =>
    let orig := get_headers c h
    let c1 := update_header c h (some v)
    let r := apply_overrides c1 rest
    (r.1, (h, orig) :: r.2)

/-- The restore loop of `Request`: write back each captured original. -/
def restore_headers (c : Client) (origs : List (String × Option String)) : Client :=
  origs.foldl (fun cl p => update_header cl p.1 p.2) c

/-- Effective overrides: `response_format == 'json'` forces
`headers_to_update['Accept'] = 'application/json'` before the loop. -/
def effective_overrides (headers_to_update : List (String × String))
    (response_format : String) : List (String × String) :=
  if response_format = "json" then pyDictInsert headers_to_update "Accept" "application/json"
  else headers_to_update

/-- Model of `Request`: apply the header overrides, perform the fetch through the
external connection client (`fetch` abstracts `update_base_url` plus
`make_request`/`make_requests_concurrently`, external collaborators that
may themselves mutate the client), restore the captured headers, then
normalize — returning the raw unnormalized response whenever
`normalize_response` raises (`except: return response`). -/
def Request (D : Decoder) (c : Client) (fetch : Client → Client × JVal)
    (headers_to_update : List (String × String)) (response_format : String)
    (target_response_key : String) (onlyParse no_content : Bool) : Client × JVal :=
  let hs := effective_overrides headers_to_update response_format
  let ar := apply_overrides c hs
  let fr := fetch ar.1
  let c3 := restore_headers fr.1 ar.2
  (c3,
    match normalize_response D fr.2 target_response_key onlyParse no_content with
    | .ok v => v
    | .error _ => fr.2)

/-! ### Header round-trip lemmas -/

theorem update_header_same (c : Client) (h : String) (v : Option String) :
    (update_header c h v).headers h = v := by
  simp [update_header]

theorem update_header_other (c : Client) {h k : String} (v : Option String) (hne : k ≠ h) :
    (update_header c h v).headers k = c.headers k := by
  simp [update_header, hne]

theorem apply_overrides_snd_of_nodup :
    ∀ (hs : List (String × String)) (c : Client), (hs.map Prod.fst).Nodup →
      (apply_overrides c hs).2 = hs.map (fun p => (p.1, c.headers p.1)) := by
  intro hs
  induction hs with
  | nil => intro c _; rfl
  | cons a rest ih =>
    intro c hnd
    obtain ⟨h, v⟩ := a
    rw [List.map_cons] at hnd
    have hnotin : h ∉ rest.map Prod.fst := (List.nodup_cons.mp hnd).1
    have hnd' : (rest.map Prod.fst).Nodup := (List.nodup_cons.mp hnd).2
    simp only [apply_overrides, List.map_cons]
    rw [ih (update_header c h (some v)) hnd']
    congr 1
    apply List.map_congr_left
    intro p hp
    have hne : p.1 ≠ h := fun he => hnotin (he ▸ List.mem_map_of_mem Prod.fst hp)
    rw [update_header_other c (some v) hne]

theorem restore_headers_not_mem :
    ∀ (origs : List (String × Option String)) (c : Client) (h : String),
      h ∉ origs.map Prod.fst → (restore_headers c origs).headers h = c.headers h := by
  intro origs
  induction origs with
  | nil => intro c h _; rfl
  | cons a rest ih =>
    intro c h hmem
    rw [List.map_cons, List.mem_cons] at hmem
    push_neg at hmem
    simp only [restore_headers, List.foldl_cons]
    have := ih (update_header c a.1 a.2) h hmem.2
    rw [restore_headers] at this
    rw [this, update_header_other c a.2 hmem.1]

theorem restore_headers_mem_of_nodup :
    ∀ (origs : List (String × Option String)) (c : Client) (h : String) (w : Option String),
      (origs.map Prod.fst).Nodup → (h, w) ∈ origs →
      (restore_headers c origs).headers h = w := by
  intro origs
  induction origs with
  | nil => intro c h w _ hmem; cases hmem
  | cons a rest ih =>
    intro c h w hnd hmem
    rw [List.map_cons] at hnd
    have hnotin : a.1 ∉ rest.map Prod.fst := (List.nodup_cons.mp hnd).1
    have hnd' : (rest.map Prod.fst).Nodup := (List.nodup_cons.mp hnd).2
    simp only [restore_headers, List.foldl_cons]
    rcases List.mem_cons.mp hmem with h1 | h2
    · have ha : a = (h, w) := h1.symm
      subst ha
      have : h ∉ rest.map Prod.fst := hnotin
      have hr := restore_headers_not_mem rest (update_header c h w) h this
      rw [restore_headers] at hr
      rw [hr, update_header_same]
    · exact ih (update_header c a.1 a.2) h w hnd' h2

theorem pyDictInsert_keys_nodup {d : List (String × α)} {k : String} (v : α)
    (hnd : (d.map Prod.fst).Nodup) : ((pyDictInsert d k v).map Prod.fst).Nodup := by
  rw [pyDictInsert]
  split
  · have : (d.map (fun p => if p.1 = k then (p.1, v) else p)).map Prod.fst = d.map Prod.fst := by
      rw [List.map_map]
      apply List.map_congr_left
      intro p _
      by_cases hpk : p.1 = k <;> simp [hpk]
    rw [this]
    exact hnd
  · rename_i hno
    push_neg at hno
    have hknotin : k ∉ d.map Prod.fst := by
      intro hk
      obtain ⟨p, hp, hpk⟩ := List.mem_map.mp hk
      exact (hno p hp) hpk
    rw [List.map_append]
    have hperm : (d.map Prod.fst ++ [k]).Nodup ↔ (k :: d.map Prod.fst).Nodup :=
      (List.perm_append_singleton k (d.map Prod.fst)).nodup_iff
    exact hperm.mpr (List.nodup_cons.mpr ⟨hknotin, hnd⟩)

theorem effective_overrides_keys_nodup (headers_to_update : List (String × String))
    (response_format : String) (hnd : (headers_to_update.map Prod.fst).Nodup) :
    ((effective_overrides headers_to_update response_format).map Prod.fst).Nodup := by
  rw [effective_overrides]
  split
  · exact pyDictInsert_keys_nodup _ hnd
  · exact hnd

/-! ### Claim theorems for the dispatcher -/

/-- C4: for every response payload on which normalization raises, the
dispatcher `Request` returns the raw unnormalized response as a fallback
(the bare `except:` swallows the error; the return type of the model is
a plain value, so no normalization error can propagate). -/
theorem C4_normalization_error_fallback (D : Decoder) (c : Client) (g : Client → Client)
    (response : JVal) (headers_to_update : List (String × String))
    (response_format target : String) (onlyParse no_content : Bool) (e : String)
    (herr : normalize_response D response target onlyParse no_content = .error e) :
    (Request D c (fun cl => (g cl, response)) headers_to_update response_format target
        onlyParse no_content).2 = response := by
  simp only [Request, herr]

/-- Witness for C4: the single-empty-list-match payload makes
normalization raise `IndexError`; `Request` hands back the raw payload. -/
theorem C4_normalization_error_fallback_witness :
    (Request noDecode ⟨fun _ => none⟩ (fun cl => (id cl, .objv [("response", .arrv [])]))
        [] "html" "response" false false).2 = .objv [("response", .arrv [])] :=
  C4_normalization_error_fallback noDecode ⟨fun _ => none⟩ id (.objv [("response", .arrv [])])
    [] "html" "response" false false "IndexError" rfl

/-- C5: header override round-trip — for every dispatched `Request` with
header overrides (the `Accept` header forced by `response_format="json"`
included), every overridden header of the shared connection client ends
the call equal to its pre-call value: each original is read before its
mutation and unconditionally written back after the fetch, whatever the
fetch itself did to the client. -/
theorem C5_header_roundtrip (D : Decoder) (c : Client) (fetch : Client → Client × JVal)
    (headers_to_update : List (String × String)) (response_format target : String)
    (onlyParse no_content : Bool) (h : String)
    (hnd : (headers_to_update.map Prod.fst).Nodup)
    (hmem : h ∈ (effective_overrides headers_to_update response_format).map Prod.fst) :
    (Request D c fetch headers_to_update response_format target onlyParse
        no_content).1.headers h = c.headers h := by
  have hnd' := effective_overrides_keys_nodup headers_to_update response_format hnd
  have hfst : (Request D c fetch headers_to_update response_format target onlyParse
      no_content).1
      = restore_headers
          (fetch (apply_overrides c (effective_overrides headers_to_update response_format)).1).1
          (apply_overrides c (effective_overrides headers_to_update response_format)).2 := rfl
  rw [hfst, apply_overrides_snd_of_nodup _ c hnd']
  have hkeys : ((effective_overrides headers_to_update response_format).map
      (fun p => (p.1, c.headers p.1))).map Prod.fst
      = (effective_overrides headers_to_update response_format).map Prod.fst := by
    rw [List.map_map]
    rfl
  obtain ⟨p, hp, hph⟩ := List.mem_map.mp hmem
  have hmem' : (h, c.headers h) ∈ (effective_overrides headers_to_update
      response_format).map (fun p => (p.1, c.headers p.1)) := by
    have : (fun q : String × String => (q.1, c.headers q.1)) p = (h, c.headers h) := by
      simp only [hph]
    exact this ▸ List.mem_map_of_mem _ hp
  exact restore_headers_mem_of_nodup _ _ h (c.headers h) (hkeys ▸ hnd') hmem'

/-- Witness for C5: a fetch that wipes every header; the overridden
`Accept` (forced by `response_format="json"`) is restored afterwards. -/
theorem C5_header_roundtrip_witness :
    (Request noDecode ⟨fun _ => some "text/html"⟩
        (fun _ => (⟨fun _ => some "junk"⟩, .nullv)) [("X", "1")] "json" "response"
        false false).1.headers "Accept"
      = (⟨fun _ => some "text/html"⟩ : Client).headers "Accept" :=
  C5_header_roundtrip noDecode ⟨fun _ => some "text/html"⟩
    (fun _ => (⟨fun _ => some "junk"⟩, .nullv)) [("X", "1")] "json" "response"
    false false "Accept" (by decide) (by decide)

/-! ### Mapping resolver (`key_from_mapping`) -/

/-- Python `str.lower()`: per-character lowercasing. -/
def pyLower (s : String) : String := ⟨s.data.map Char.toLower⟩

/-- Python `str.strip()`: drop leading and trailing whitespace. -/
def pyStrip (s : String) : String :=
  ⟨((s.data.dropWhile Char.isWhitespace).reverse.dropWhile Char.isWhitespace).reverse⟩

/-- A value of the mappings dict: a single display string or a list of
synonym display-names. -/
inductive MapVal where
  | single (s : String) : MapVal
  | syns (l : List String) : MapVal
deriving DecidableEq

/-- The synonyms recorded for a mapping value (the `isinstance(value,
list)` branch iterates the list; otherwise the single value itself). -/
def synList : MapVal → List String
  | .single s => [s]
  | .syns l => l

/-- Possible Python return values of `key_from_mapping`: a key/display
string or a synonym list. -/
inductive PyRet where
  | strv (s : String) : PyRet
  | listv (l : List String) : PyRet
deriving DecidableEq

/-- The mapped value as returned when `invert` is set. -/
def mapValRet : MapVal → PyRet
  | .single s => .strv s
  | .syns l => .listv l

/-- The dict comprehension `{key.lower(): key for key in mappings}` (where
later keys overwrite earlier ones on a lowercase collision). -/
def lower_case_mappings (mappings : List (String × MapVal)) : List (String × String) :=
  mappings.foldl (fun d p => pyDictInsert d (pyLower p.1) p.1) []

/-- The `inverse_mappings` loop: for each key, record every synonym
(lowercased) pointing back to the key; a later assignment to the same
synonym overwrites an earlier one. -/
def inverse_mappings (mappings : List (String × MapVal)) : List (String × String) :=
  mappings.foldl
    (fun d p => (synList p.2).foldl (fun d2 syn => pyDictInsert d2 (pyLower syn) p.1) d) []

/-- Model of `key_from_mapping`: strip and lowercase the input, check the
canonical keys first (returning the key, or its mapped value when
`invert`), then the recorded synonyms (returning the canonical key),
else `None`. -/
def key_from_mapping (input_str : String) (mappings : List (String × MapVal))
    (invert : Bool) : Option PyRet :=
  let inp := pyLower (pyStrip input_str)
  match lookupKey inp (lower_case_mappings mappings) with
  | some origKey =>
    if invert then (lookupKey origKey mappings).map mapValRet
    else some (.strv origKey)
  | none =>
    match lookupKey inp (inverse_mappings mappings) with
    | some k => some (.strv k)
    | none => none

/-- The last key of `mappings` whose lowercase form is `inp` (dict
comprehension semantics: the final overwrite wins). -/
def lastMatchKey (inp : String) (mappings : List (String × MapVal)) : Option String :=
  mappings.foldl (fun acc p => if pyLower p.1 = inp then some p.1 else acc) none

/-- The last key of `mappings` recording `inp` among its lowercased
synonyms (the final `inverse_mappings[...] = key` assignment wins). -/
def lastOwnerKey (inp : String) (mappings : List (String × MapVal)) : Option String :=
  mappings.foldl
    (fun acc (p : String × MapVal) =>
      if ∃ syn ∈ synList p.2, pyLower syn = inp then some p.1 else acc)
    none

/-! ### Dict-building lemmas -/

theorem lookupKey_eq_none {inp : String} {d : List (String × α)}
    (h : ∀ p ∈ d, p.1 ≠ inp) : lookupKey inp d = none := by
  induction d with
  | nil => rfl
  | cons q rest ih =>
    obtain ⟨qk, qv⟩ := q
    have hk : qk ≠ inp := h (qk, qv) (List.mem_cons_self _ _)
    simp only [lookupKey, if_neg hk]
    exact ih (fun p hp => h p (List.mem_cons_of_mem _ hp))

theorem lookupKey_append (inp : String) (d d' : List (String × α)) :
    lookupKey inp (d ++ d') = match lookupKey inp d with
      | some v => some v
      | none => lookupKey inp d' := by
  induction d with
  | nil => simp [lookupKey]
  | cons q rest ih =>
    obtain ⟨qk, qv⟩ := q
    by_cases hq : qk = inp
    · simp [lookupKey, hq, List.cons_append]
    · simp only [List.cons_append, lookupKey, if_neg hq]
      exact ih

theorem lookupKey_cons (target qk : String) (qv : α) (rest : List (String × α)) :
    lookupKey target ((qk, qv) :: rest)
      = if qk = target then some qv else lookupKey target rest := rfl

theorem lookupKey_map_replace_ne {inp k : String} (v : α) (d : List (String × α))
    (hne : inp ≠ k) :
    lookupKey inp (d.map (fun p => if p.1 = k then (p.1, v) else p)) = lookupKey inp d := by
  induction d with
  | nil => rfl
  | cons q rest ih =>
    obtain ⟨qk, qv⟩ := q
    by_cases hqk : qk = k
    · subst hqk
      simp [lookupKey_cons, Ne.symm hne, ih]
    · by_cases hqinp : qk = inp
      · simp [lookupKey_cons, hqk, hqinp, hne]
      · simp [lookupKey_cons, hqk, hqinp, ih]

theorem lookupKey_map_replace_eq {k : String} (v : α) (d : List (String × α))
    (hex : ∃ p ∈ d, p.1 = k) :
    lookupKey k (d.map (fun p => if p.1 = k then (p.1, v) else p)) = some v := by
  induction d with
  | nil => obtain ⟨p, hp, _⟩ := hex; cases hp
  | cons q rest ih =>
    obtain ⟨qk, qv⟩ := q
    by_cases hqk : qk = k
    · subst hqk
      simp [lookupKey_cons]
    · have hex' : ∃ p ∈ rest, p.1 = k := by
        obtain ⟨p, hp, hpk⟩ := hex
        rcases List.mem_cons.mp hp with h1 | h2
        · rw [h1] at hpk
          exact absurd hpk hqk
        · exact ⟨p, h2, hpk⟩
      simp [lookupKey_cons, hqk]
      exact ih hex'

theorem lookupKey_pyDictInsert (inp k : String) (v : α) (d : List (String × α)) :
    lookupKey inp (pyDictInsert d k v) = if inp = k then some v else lookupKey inp d := by
  rw [pyDictInsert]
  split
  · rename_i hex
    by_cases hik : inp = k
    · subst hik
      rw [if_pos rfl]
      exact lookupKey_map_replace_eq v d hex
    · rw [if_neg hik]
      exact lookupKey_map_replace_ne v d hik
  · rename_i hno
    push_neg at hno
    rw [lookupKey_append]
    by_cases hik : inp = k
    · subst hik
      rw [lookupKey_eq_none hno]
      simp [lookupKey]
    · have h1 : lookupKey inp ([(k, v)] : List (String × α)) = none := by
        simp only [lookupKey]
        rw [if_neg (fun he => hik he.symm)]
      rw [if_neg hik]
      cases hl : lookupKey inp d with
      | some w => rfl
      | none => exact h1

theorem lookupKey_of_mem_nodup {m : List (String × α)} {k : String} {v : α}
    (hnd : (m.map Prod.fst).Nodup) (hmem : (k, v) ∈ m) : lookupKey k m = some v := by
  induction m with
  | nil => cases hmem
  | cons q rest ih =>
    obtain ⟨qk, qv⟩ := q
    rw [List.map_cons] at hnd
    rcases List.mem_cons.mp hmem with h1 | h2
    · injection h1 with e1 e2
      subst e1; subst e2
      simp [lookupKey]
    · have hk : qk ≠ k := by
        intro he
        subst he
        exact (List.nodup_cons.mp hnd).1
          (by simpa using List.mem_map_of_mem Prod.fst h2)
      simp only [lookupKey, if_neg hk]
      exact ih (List.nodup_cons.mp hnd).2 h2

/-! ### The two internal dicts, characterized as last-wins folds -/

theorem lookup_lower_case_mappings (m : List (String × MapVal)) (inp : String) :
    lookupKey inp (lower_case_mappings m) = lastMatchKey inp m := by
  induction m using List.reverseRecOn with
  | nil => rfl
  | append_singleton t p ih =>
    have h1 : lower_case_mappings (t ++ [p])
        = pyDictInsert (lower_case_mappings t) (pyLower p.1) p.1 := by
      rw [lower_case_mappings, List.foldl_append]
      rfl
    have h2 : lastMatchKey inp (t ++ [p])
        = if pyLower p.1 = inp then some p.1 else lastMatchKey inp t := by
      rw [lastMatchKey, List.foldl_append]
      rfl
    rw [h1, h2, lookupKey_pyDictInsert]
    by_cases h : inp = pyLower p.1
    · rw [if_pos h, if_pos h.symm]
    · rw [if_neg h, if_neg (fun he => h he.symm)]
      exact ih

theorem lookup_syn_foldl (inp k : String) (l : List String) (d : List (String × String)) :
    lookupKey inp (l.foldl (fun d2 syn => pyDictInsert d2 (pyLower syn) k) d)
      = if ∃ syn ∈ l, pyLower syn = inp then some k else lookupKey inp d := by
  induction l using List.reverseRecOn with
  | nil => simp
  | append_singleton t syn ih =>
    have h1 : (t ++ [syn]).foldl (fun d2 s => pyDictInsert d2 (pyLower s) k) d
        = pyDictInsert (t.foldl (fun d2 s => pyDictInsert d2 (pyLower s) k) d) (pyLower syn) k := by
      rw [List.foldl_append]
      rfl
    rw [h1, lookupKey_pyDictInsert, ih]
    by_cases hs : inp = pyLower syn
    · rw [if_pos hs]
      have hex : ∃ s ∈ t ++ [syn], pyLower s = inp := ⟨syn, by simp, hs.symm⟩
      rw [if_pos hex]
    · rw [if_neg hs]
      by_cases ht : ∃ s ∈ t, pyLower s = inp
      · have hex : ∃ s ∈ t ++ [syn], pyLower s = inp := by
          obtain ⟨s, hsm, hse⟩ := ht
          exact ⟨s, by simp [hsm], hse⟩
        rw [if_pos ht, if_pos hex]
      · have hno : ¬∃ s ∈ t ++ [syn], pyLower s = inp := by
          rintro ⟨s, hsm, hse⟩
          rcases List.mem_append.mp hsm with hm1 | hm2
          · exact ht ⟨s, hm1, hse⟩
          · simp at hm2
            subst hm2
            exact hs hse.symm
        rw [if_neg ht, if_neg hno]

theorem lookup_inverse_mappings (m : List (String × MapVal)) (inp : String) :
    lookupKey inp (inverse_mappings m) = lastOwnerKey inp m := by
  induction m using List.reverseRecOn with
  | nil => rfl
  | append_singleton t p ih =>
    have h1 : inverse_mappings (t ++ [p])
        = (synList p.2).foldl (fun d2 syn => pyDictInsert d2 (pyLower syn) p.1)
            (inverse_mappings t) := by
      rw [inverse_mappings, List.foldl_append]
      rfl
    have h2 : lastOwnerKey inp (t ++ [p])
        = if ∃ syn ∈ synList p.2, pyLower syn = inp then some p.1
          else lastOwnerKey inp t := by
      rw [lastOwnerKey, List.foldl_append]
      rfl
    rw [h1, lookup_syn_foldl, ih, h2]

theorem lastMatchKey_eq_none {inp : String} {m : List (String × MapVal)}
    (h : ∀ p ∈ m, pyLower p.1 ≠ inp) : lastMatchKey inp m = none := by
  induction m using List.reverseRecOn with
  | nil => rfl
  | append_singleton t p ih =>
    have h2 : lastMatchKey inp (t ++ [p])
        = if pyLower p.1 = inp then some p.1 else lastMatchKey inp t := by
      rw [lastMatchKey, List.foldl_append]
      rfl
    rw [h2, if_neg (h p (by simp))]
    exact ih (fun q hq => h q (by simp [hq]))

theorem lastMatchKey_isSome {inp : String} {m : List (String × MapVal)}
    (h : ∃ p ∈ m, pyLower p.1 = inp) : (lastMatchKey inp m).isSome = true := by
  induction m using List.reverseRecOn with
  | nil => obtain ⟨p, hp, _⟩ := h; cases hp
  | append_singleton t p ih =>
    have h2 : lastMatchKey inp (t ++ [p])
        = if pyLower p.1 = inp then some p.1 else lastMatchKey inp t := by
      rw [lastMatchKey, List.foldl_append]
      rfl
    rw [h2]
    by_cases hp : pyLower p.1 = inp
    · rw [if_pos hp]; rfl
    · rw [if_neg hp]
      apply ih
      obtain ⟨q, hq, hqe⟩ := h
      rcases List.mem_append.mp hq with hm1 | hm2
      · exact ⟨q, hm1, hqe⟩
      · simp at hm2
        subst hm2
        exact absurd hqe hp

theorem lastMatchKey_some_spec {inp : String} {m : List (String × MapVal)} {k : String}
    (h : lastMatchKey inp m = some k) : ∃ v, (k, v) ∈ m ∧ pyLower k = inp := by
  induction m using List.reverseRecOn with
  | nil => cases h
  | append_singleton t p ih =>
    have h2 : lastMatchKey inp (t ++ [p])
        = if pyLower p.1 = inp then some p.1 else lastMatchKey inp t := by
      rw [lastMatchKey, List.foldl_append]
      rfl
    rw [h2] at h
    by_cases hp : pyLower p.1 = inp
    · rw [if_pos hp] at h
      injection h with hk
      subst hk
      exact ⟨p.2, by simp, hp⟩
    · rw [if_neg hp] at h
      obtain ⟨v, hv, hl⟩ := ih h
      exact ⟨v, by simp [hv], hl⟩

theorem lastOwnerKey_eq_none {inp : String} {m : List (String × MapVal)}
    (h : ∀ p ∈ m, ∀ syn ∈ synList p.2, pyLower syn ≠ inp) : lastOwnerKey inp m = none := by
  induction m using List.reverseRecOn with
  | nil => rfl
  | append_singleton t p ih =>
    have h2 : lastOwnerKey inp (t ++ [p])
        = if ∃ syn ∈ synList p.2, pyLower syn = inp then some p.1
          else lastOwnerKey inp t := by
      rw [lastOwnerKey, List.foldl_append]
      rfl
    have hno : ¬∃ syn ∈ synList p.2, pyLower syn = inp := by
      rintro ⟨syn, hsm, hse⟩
      exact h p (by simp) syn hsm hse
    rw [h2, if_neg hno]
    exact ih (fun q hq => h q (by simp [hq]))

theorem lastOwnerKey_isSome {inp : String} {m : List (String × MapVal)}
    (h : ∃ p ∈ m, ∃ syn ∈ synList p.2, pyLower syn = inp) :
    (lastOwnerKey inp m).isSome = true := by
  induction m using List.reverseRecOn with
  | nil => obtain ⟨p, hp, _⟩ := h; cases hp
  | append_singleton t p ih =>
    have h2 : lastOwnerKey inp (t ++ [p])
        = if ∃ syn ∈ synList p.2, pyLower syn = inp then some p.1
          else lastOwnerKey inp t := by
      rw [lastOwnerKey, List.foldl_append]
      rfl
    rw [h2]
    by_cases hp : ∃ syn ∈ synList p.2, pyLower syn = inp
    · rw [if_pos hp]; rfl
    · rw [if_neg hp]
      apply ih
      obtain ⟨q, hq, hqe⟩ := h
      rcases List.mem_append.mp hq with hm1 | hm2
      · exact ⟨q, hm1, hqe⟩
      · simp at hm2
        subst hm2
        exact absurd hqe hp

theorem lastOwnerKey_some_spec {inp : String} {m : List (String × MapVal)} {k : String}
    (h : lastOwnerKey inp m = some k) :
    ∃ v, (k, v) ∈ m ∧ ∃ syn ∈ synList v, pyLower syn = inp := by
  induction m using List.reverseRecOn with
  | nil => cases h
  | append_singleton t p ih =>
    have h2 : lastOwnerKey inp (t ++ [p])
        = if ∃ syn ∈ synList p.2, pyLower syn = inp then some p.1
          else lastOwnerKey inp t := by
      rw [lastOwnerKey, List.foldl_append]
      rfl
    rw [h2] at h
    by_cases hp : ∃ syn ∈ synList p.2, pyLower syn = inp
    · rw [if_pos hp] at h
      injection h with hk
      subst hk
      exact ⟨p.2, by simp, hp⟩
    · rw [if_neg hp] at h
      obtain ⟨v, hv, hl⟩ := ih h
      exact ⟨v, by simp [hv], hl⟩

/-! ### Claim theorems for the mapping resolver -/

/-- C8 (counterexample): the claim "a synonym appearing under two
different canonical keys resolves to the earlier canonical key in
mapping construction order" is false: each `inverse_mappings[syn] = key`
assignment overwrites the previous one, so for
`{"A": ["x"], "B": ["x"]}` the synonym `"x"` resolves to the later key
`"B"`, not `"A"`. -/
theorem C8_counterexample :
    key_from_mapping "x" [("A", .syns ["x"]), ("B", .syns ["x"])] false
      = some (.strv "B") ∧
    some (PyRet.strv "B") ≠ some (PyRet.strv "A") := by
  exact ⟨rfl, by decide⟩

/-- C8 (amended): whenever the (stripped, lowercased) input matches no
canonical key, `key_from_mapping` resolves it through `inverse_mappings`
to the LAST canonical key recording it as a synonym, in mapping
construction order — so a synonym duplicated across canonical keys goes
to the later key. -/
theorem C8_duplicate_synonym_later_key_wins (input_str : String)
    (m : List (String × MapVal)) (invert : Bool)
    (hnc : ∀ p ∈ m, pyLower p.1 ≠ pyLower (pyStrip input_str)) :
    key_from_mapping input_str m invert
      = (lastOwnerKey (pyLower (pyStrip input_str)) m).map PyRet.strv := by
  have h1 : lookupKey (pyLower (pyStrip input_str)) (lower_case_mappings m) = none := by
    rw [lookup_lower_case_mappings]
    exact lastMatchKey_eq_none hnc
  simp only [key_from_mapping, h1, lookup_inverse_mappings]
  cases lastOwnerKey (pyLower (pyStrip input_str)) m with
  | some k => rfl
  | none => rfl

/-- Witness for C8 (amended): applied to the duplicated-synonym mapping
of the counterexample. -/
theorem C8_duplicate_synonym_later_key_wins_witness :
    key_from_mapping "x" [("A", MapVal.syns ["x"]), ("B", MapVal.syns ["x"])] false
      = (lastOwnerKey (pyLower (pyStrip "x"))
          [("A", MapVal.syns ["x"]), ("B", MapVal.syns ["x"])]).map PyRet.strv :=
  C8_duplicate_synonym_later_key_wins "x"
    [("A", MapVal.syns ["x"]), ("B", MapVal.syns ["x"])] false (by decide)

/-- C9: `key_from_mapping` strips and lowercases the input and matches
case-insensitively; it checks the canonical keys first (returning the
canonical key, or its mapped value when `invert` is set), otherwise the
recorded display-name/synonyms (returning the owning canonical key), and
returns `none` when neither matches. -/
theorem C9_resolver_matching_order (input_str : String) (m : List (String × MapVal))
    (invert : Bool) (hnd : (m.map Prod.fst).Nodup) :
    ((∃ p ∈ m, pyLower p.1 = pyLower (pyStrip input_str)) →
      ∃ p ∈ m, pyLower p.1 = pyLower (pyStrip input_str) ∧
        key_from_mapping input_str m invert
          = some (if invert then mapValRet p.2 else PyRet.strv p.1)) ∧
    ((∀ p ∈ m, pyLower p.1 ≠ pyLower (pyStrip input_str)) →
      (∃ p ∈ m, ∃ syn ∈ synList p.2, pyLower syn = pyLower (pyStrip input_str)) →
      ∃ p ∈ m, (∃ syn ∈ synList p.2, pyLower syn = pyLower (pyStrip input_str)) ∧
        key_from_mapping input_str m invert = some (PyRet.strv p.1)) ∧
    ((∀ p ∈ m, pyLower p.1 ≠ pyLower (pyStrip input_str)) →
      (∀ p ∈ m, ∀ syn ∈ synList p.2, pyLower syn ≠ pyLower (pyStrip input_str)) →
      key_from_mapping input_str m invert = none) := by
  refine ⟨?_, ?_, ?_⟩
  · intro hex
    obtain ⟨k, hk⟩ := Option.isSome_iff_exists.mp (lastMatchKey_isSome hex)
    obtain ⟨v, hvm, hvl⟩ := lastMatchKey_some_spec hk
    refine ⟨(k, v), hvm, hvl, ?_⟩
    have hlcm : lookupKey (pyLower (pyStrip input_str)) (lower_case_mappings m) = some k := by
      rw [lookup_lower_case_mappings]
      exact hk
    cases invert with
    | false => simp only [key_from_mapping, hlcm]; rfl
    | true =>
      simp only [key_from_mapping, hlcm, if_pos]
      rw [lookupKey_of_mem_nodup hnd hvm]
      rfl
  · intro hnc hex2
    have h1 : lookupKey (pyLower (pyStrip input_str)) (lower_case_mappings m) = none := by
      rw [lookup_lower_case_mappings]
      exact lastMatchKey_eq_none hnc
    obtain ⟨k, hk⟩ := Option.isSome_iff_exists.mp (lastOwnerKey_isSome hex2)
    obtain ⟨v, hvm, hsyn⟩ := lastOwnerKey_some_spec hk
    refine ⟨(k, v), hvm, hsyn, ?_⟩
    have hinv : lookupKey (pyLower (pyStrip input_str)) (inverse_mappings m) = some k := by
      rw [lookup_inverse_mappings]
      exact hk
    simp only [key_from_mapping, h1, hinv]
  · intro hnc hns
    have h1 : lookupKey (pyLower (pyStrip input_str)) (lower_case_mappings m) = none := by
      rw [lookup_lower_case_mappings]
      exact lastMatchKey_eq_none hnc
    have h2 : lookupKey (pyLower (pyStrip input_str)) (inverse_mappings m) = none := by
      rw [lookup_inverse_mappings]
      exact lastOwnerKey_eq_none hns
    simp only [key_from_mapping, h1, h2]

/-- Witness for C9 on the mapping `{"A": ["x"], "B": "y"}`: the input
`" A "` (whitespace, wrong case) resolves through the canonical keys,
`"x"` through the synonyms, and `"z"` to nothing. -/
theorem C9_resolver_matching_order_witness :
    (∃ p ∈ [("A", MapVal.syns ["x"]), ("B", MapVal.single "y")],
        pyLower p.1 = pyLower (pyStrip " A ") ∧
        key_from_mapping " A " [("A", MapVal.syns ["x"]), ("B", MapVal.single "y")] false
          = some (if false then mapValRet p.2 else PyRet.strv p.1)) ∧
    (∃ p ∈ [("A", MapVal.syns ["x"]), ("B", MapVal.single "y")],
        (∃ syn ∈ synList p.2, pyLower syn = pyLower (pyStrip "x")) ∧
        key_from_mapping "x" [("A", MapVal.syns ["x"]), ("B", MapVal.single "y")] false
          = some (PyRet.strv p.1)) ∧
    key_from_mapping "z" [("A", MapVal.syns ["x"]), ("B", MapVal.single "y")] false = none :=
  ⟨(C9_resolver_matching_order " A " [("A", MapVal.syns ["x"]), ("B", MapVal.single "y")]
      false (by decide)).1 (by decide),
   (C9_resolver_matching_order "x" [("A", MapVal.syns ["x"]), ("B", MapVal.single "y")]
      false (by decide)).2.1 (by decide) (by decide),
   (C9_resolver_matching_order "z" [("A", MapVal.syns ["x"]), ("B", MapVal.single "y")]
      false (by decide)).2.2 (by decide) (by decide)⟩

end RespUtils
